import Mathlib

/-!
Verification development for the captiq capital-gains engine.

The Python source is shallowly embedded as follows:
* `Decimal` and `Money` amounts become `ℚ` (the code validates that every
  order is denominated in the single base currency, so the currency tag is
  dropped; `Decimal` arithmetic on the inputs at hand is exact rational
  arithmetic).
* `datetime.date` / `datetime.datetime` become an integer day number
  (rata die).  Matching, pooling and sorting in `calculate.py` only ever
  use the calendar date, and `timedelta(days = n)` is addition of `n`.
  `Order.merge` truncates the time-of-day, which is the identity at day
  granularity.
* Python truthiness of `Money` (an amount is falsy exactly when it is zero)
  and of `None` is modelled explicitly by `feeTruthy` on `Option ℚ`.
* Python dataclass equality on orders compares every field except the
  `number` sequence field (declared `compare=False`); `Order.key` erases
  `number` and `memP` is the resulting membership test used for the
  `matched` set of `TaxCalculator._match_shares`.
* mutable dicts become association lists (`alGet`, `alSet`, `alDel`), which
  preserve the key-insertion order that Python dicts guarantee.
* `raise` under strict mode becomes `Except.error`; the lenient
  `raise_or_warn` branch logs and continues, which is modelled by
  continuing (the log output itself is not modelled).
-/

/-- Marks whether an order is an `Acquisition` or a `Disposal` (the two
dataclass subclasses of `Order` in `transaction.py`).  Python dataclass
equality distinguishes the two classes, so the tag takes part in `Order`
equality. -/
inductive Side where
  | acquisition : Side
  | disposal : Side
deriving DecidableEq

/-- Embedding of `captiq.fees.Fees`: six optional fee components.  The
`currency` field of the Python class is dropped (single-currency model). -/
structure Fees where
  charge : Option ℚ := none
  stampDuty : Option ℚ := none
  forex : Option ℚ := none
  finra : Option ℚ := none
  sec : Option ℚ := none
  french : Option ℚ := none
deriving DecidableEq

/-- Python truthiness of an optional `Money`: `None` is falsy and a `Money`
is falsy exactly when its amount is zero. -/
def feeTruthy : Option ℚ → Bool
  | none => false
  | some v => decide (v ≠ 0)

/-- Embedding of `captiq.fees.add`: `(a + b) if a and b else (a or b)`. -/
def feeAdd (a b : Option ℚ) : Option ℚ :=
  if feeTruthy a && feeTruthy b then some (a.getD 0 + b.getD 0)
  else if feeTruthy a then a else b

/-- Embedding of `captiq.fees.sub`:
`(a - b) if a and b else (a or (-b if b else None))`. -/
def feeSub (a b : Option ℚ) : Option ℚ :=
  if feeTruthy a && feeTruthy b then some (a.getD 0 - b.getD 0)
  else if feeTruthy a then a
  else if feeTruthy b then some (-(b.getD 0)) else none

/-- Embedding of `captiq.fees.mul`: `m * v if m else None`. -/
def feeMul (m : Option ℚ) (v : ℚ) : Option ℚ :=
  if feeTruthy m then some (m.getD 0 * v) else none

/-- Embedding of `captiq.fees.div`: `m / v if m else None`. -/
def feeDiv (m : Option ℚ) (v : ℚ) : Option ℚ :=
  if feeTruthy m then some (m.getD 0 / v) else none

/-- Embedding of `Fees.__add__`: component-wise `feeAdd`. -/
def Fees.add (f g : Fees) : Fees where
  charge := feeAdd f.charge g.charge
  stampDuty := feeAdd f.stampDuty g.stampDuty
  forex := feeAdd f.forex g.forex
  finra := feeAdd f.finra g.finra
  sec := feeAdd f.sec g.sec
  french := feeAdd f.french g.french

/-- Embedding of `Fees.__sub__`: component-wise `feeSub`. -/
def Fees.sub (f g : Fees) : Fees where
  charge := feeSub f.charge g.charge
  stampDuty := feeSub f.stampDuty g.stampDuty
  forex := feeSub f.forex g.forex
  finra := feeSub f.finra g.finra
  sec := feeSub f.sec g.sec
  french := feeSub f.french g.french

/-- Embedding of `Fees.__mul__`: every component is scaled by `feeMul`. -/
def Fees.mul (f : Fees) (v : ℚ) : Fees where
  charge := feeMul f.charge v
  stampDuty := feeMul f.stampDuty v
  forex := feeMul f.forex v
  finra := feeMul f.finra v
  sec := feeMul f.sec v
  french := feeMul f.french v

/-- Embedding of `Fees.__truediv__`: every component is divided by `feeDiv`. -/
def Fees.div (f : Fees) (v : ℚ) : Fees where
  charge := feeDiv f.charge v
  stampDuty := feeDiv f.stampDuty v
  forex := feeDiv f.forex v
  finra := feeDiv f.finra v
  sec := feeDiv f.sec v
  french := feeDiv f.french v

/-- Embedding of `Fees.total`: the truthy components are collected into a
list and summed starting from zero, exactly as the Python property does. -/
def Fees.total (f : Fees) : ℚ :=
  (([f.charge, f.stampDuty, f.forex, f.finra, f.sec, f.french].filter
      (fun x => feeTruthy x)).map (fun x => x.getD 0)).foldl (· + ·) 0

/-- Decimal value of an optional fee component, reading `None` as zero. -/
def feeVal (x : Option ℚ) : ℚ := x.getD 0

/-- Embedding of `captiq.transaction.Order` (with its `Transaction` base
fields).  `number` is the global sequence number, which Python declares
`compare=False`, so it is excluded from the equality used by the matcher
(see `Order.key`).  Python reassigns a fresh global `number` in
`__post_init__` whenever `dataclasses.replace` builds a new order; the
model keeps the parent number instead, which is sound because `number`
never takes part in comparisons and the provenance notes always quote the
number captured before the replacement. -/
structure Order where
  side : Side
  timestamp : ℤ
  total : ℚ
  trId : Option String := none
  notes : Option String := none
  number : ℕ := 0
  isin : String
  ticker : Option String := none
  name : Option String := none
  quantity : ℚ
  originalQuantity : Option ℚ := none
  fees : Fees := {}
deriving DecidableEq

/-- Embedding of `Transaction.date`: the model works at day granularity, so
the date of an order is its timestamp. -/
def Order.date (o : Order) : ℤ := o.timestamp

/-- Embedding of `Disposal.gross_proceeds`: `total + fees.total`. -/
def Order.grossProceeds (o : Order) : ℚ := o.total + o.fees.total

/-- Projection of an order onto the fields that Python dataclass equality
compares (`number` is declared `compare=False` and is erased here). -/
def Order.key (o : Order) : Order := { o with number := 0 }

/-- Membership in a Python `set[Order]`: two orders collide exactly when
all compared fields (everything but `number`) agree. -/
def memP (o : Order) (l : List Order) : Bool :=
  l.any (fun x => decide (o.key = x.key))

/-- Embedding of `Order.split`: the matched portion receives
`total / quantity * split_quantity` of the total and the proportional fees,
the remainder receives what is left, and both parts carry a provenance
note quoting the parent sequence number. -/
def Order.split (o : Order) (splitQuantity : ℚ) : Order × Order :=
  let matchTotal := o.total / o.quantity * splitQuantity
  let matchQuantity := splitQuantity
  let matchFees := (o.fees.div o.quantity).mul splitQuantity
  let remainderTotal := o.total - matchTotal
  let remainderQuantity := o.quantity - matchQuantity
  let remainderFees := o.fees.sub matchFees
  let note := some ("Splitted from order " ++ toString o.number)
  ({ o with total := matchTotal, quantity := matchQuantity,
            fees := matchFees, notes := note },
   { o with total := remainderTotal, quantity := remainderQuantity,
            fees := remainderFees, notes := note })

/-- Embedding of `Order.merge` applied to the non-empty list
`first :: rest`: totals, quantities and fees are summed by a left fold
(Python `reduce`), the timestamp of the first order is truncated to its
date (the identity at day granularity) and the note lists the contributing
sequence numbers. -/
def Order.mergeAll (first : Order) (rest : List Order) : Order :=
  let all := first :: rest
  let total := (all.map (fun o => o.total)).foldl (· + ·) 0
  let quantity := (all.map (fun o => o.quantity)).foldl (· + ·) 0
  let fees := rest.foldl (fun acc o => acc.add o.fees) first.fees
  let note := some ("Merged from orders " ++
    String.intercalate "," (all.map (fun o => toString o.number)))
  { first with total := total, quantity := quantity, fees := fees,
               notes := note }

/-- Embedding of `captiq.calculate.same_day_match`. -/
def sameDayMatch (ord1 ord2 : Order) : Bool :=
  decide (ord1.isin = ord2.isin ∧ ord1.date = ord2.date)

/-- Embedding of `captiq.calculate.thirty_days_match`:
`ord1.isin == ord2.isin and ord2.date < ord1.date <= ord2.date + 30 days`. -/
def thirtyDaysMatch (ord1 ord2 : Order) : Bool :=
  decide (ord1.isin = ord2.isin ∧ ord2.date < ord1.date ∧
          ord1.date ≤ ord2.date + 30)

/-- Embedding of `captiq.tax.gain.CapitalGain`. -/
structure CapitalGain where
  disposal : Order
  cost : ℚ
  acquisitionDate : Option ℤ := none
deriving DecidableEq

/-- Embedding of `CapitalGain.gain`: gross proceeds of the disposal minus
the matched cost. -/
def CapitalGain.gain (cg : CapitalGain) : ℚ :=
  cg.disposal.grossProceeds - cg.cost

/-- Embedding of `CapitalGain.quantity`:
`original_quantity or quantity`, where a zero original quantity is falsy. -/
def CapitalGain.quantity (cg : CapitalGain) : ℚ :=
  match cg.disposal.originalQuantity with
  | some q => if q = 0 then cg.disposal.quantity else q
  | none => cg.disposal.quantity

/-- Embedding of `CapitalGain.identification`: `Section 104` for a
pool-sourced gain, `Same day` when the acquisition date equals the
disposal date, otherwise the bed-and-breakfast label. -/
def CapitalGain.identification (cg : CapitalGain) : String :=
  match cg.acquisitionDate with
  | none => "Section 104"
  | some d =>
      if d = cg.disposal.date then "Same day"
      else "Bed & B. (" ++ toString d ++ ")"

/-- Embedding of `captiq.tax.s104.Section104`: running quantity and cost of
the per-security pool (the constructor drops the date argument, as the
Python `__init__` does). -/
structure Section104 where
  quantity : ℚ
  cost : ℚ
deriving DecidableEq

/-- Embedding of `Section104.increase`. -/
def Section104.increase (h : Section104) (quantity cost : ℚ) : Section104 :=
  { quantity := h.quantity + quantity, cost := h.cost + cost }

/-- Embedding of `Section104.decrease`. -/
def Section104.decrease (h : Section104) (quantity cost : ℚ) : Section104 :=
  { quantity := h.quantity - quantity, cost := h.cost - cost }

/-- Gain record emitted by `_match_shares`:
`CapitalGain(disp, acq.total + disp.fees.total, acq.date)`. -/
def mkGain (disp acq : Order) : CapitalGain :=
  { disposal := disp, cost := acq.total + disp.fees.total,
    acquisitionDate := some acq.date }

/-- Final state of the `_match_shares` while loop: the two (in-place
mutated) order lists, the `matched` set, the gains appended to
`_capital_gains`, and a ghost list of the remainders produced by partial
splits (Python does not store these separately; the accumulator only
names the orders that a split put back into a list). -/
structure MatchResult where
  acqs : List Order
  disps : List Order
  matched : List Order
  remsA : List Order
  remsD : List Order
  gains : List CapitalGain
deriving DecidableEq

/-- Embedding of the while loop of `TaxCalculator._match_shares`.  One unit
of fuel is spent per iteration; `matchRun` supplies fuel exceeding the
loop variant `(len disposals - di) * (len acquisits + 2) + (len acquisits
+ 1 - ai)`, which strictly decreases every iteration (the two lists never
change length: splits replace an element in place), so the loop always
exits through its guard before the fuel runs out. -/
def matchLoopF (f : Order → Order → Bool) :
    ℕ → List Order → List Order → List Order → List Order → List Order →
    List CapitalGain → ℕ → ℕ → MatchResult
  | 0, acqs, disps, mtc, remsA, remsD, gains, _, _ =>
      ⟨acqs, disps, mtc, remsA, remsD, gains⟩
  | fuel + 1, acqs, disps, mtc, remsA, remsD, gains, ai, di =>
      if hdi : di < disps.length then
        if hai : ai < acqs.length then
          let acq := acqs.get ⟨ai, hai⟩
          let disp := disps.get ⟨di, hdi⟩
          if f acq disp && !memP acq mtc then
            if acq.quantity > disp.quantity then
              let pr := acq.split disp.quantity
              matchLoopF f fuel (acqs.set ai pr.2) disps
                (disp :: acq :: mtc) (pr.2 :: remsA) remsD
                (gains ++ [mkGain disp pr.1]) 0 (di + 1)
            else if disp.quantity > acq.quantity then
              let pr := disp.split acq.quantity
              matchLoopF f fuel acqs (disps.set di pr.2)
                (disp :: acq :: mtc) remsA (pr.2 :: remsD)
                (gains ++ [mkGain pr.1 acq]) (ai + 1) di
            else
              matchLoopF f fuel acqs disps (disp :: acq :: mtc) remsA remsD
                (gains ++ [mkGain disp acq]) 0 (di + 1)
          else
            matchLoopF f fuel acqs disps mtc remsA remsD gains (ai + 1) di
        else
          matchLoopF f fuel acqs disps mtc remsA remsD gains 0 (di + 1)
      else ⟨acqs, disps, mtc, remsA, remsD, gains⟩

/-- Runs the `_match_shares` loop from both cursors at zero with empty
`matched` set, with enough fuel for the loop to exit through its guard. -/
def matchRun (f : Order → Order → Bool) (acqs disps : List Order) :
    MatchResult :=
  matchLoopF f ((disps.length + 1) * (acqs.length + 2)) acqs disps
    [] [] [] [] 0 0

/-- Embedding of `TaxCalculator._match_shares` for one security: run the
loop, then keep only the orders that are not in the `matched` set
(`[o for o in acquisits if o not in matched]` and likewise for
disposals), and return the gains emitted by this rule pass. -/
def matchShares (f : Order → Order → Bool) (acqs disps : List Order) :
    List Order × List Order × List CapitalGain :=
  let r := matchRun f acqs disps
  (r.acqs.filter (fun o => !memP o r.matched),
   r.disps.filter (fun o => !memP o r.matched),
   r.gains)

/-- Inserts an order after every element whose date is not larger; folding
this over a list is Python stable `sorted(key = date)`. -/
def insertByDate (o : Order) : List Order → List Order
  | [] => [o]
  | x :: xs => if x.date ≤ o.date then x :: insertByDate o xs else o :: x :: xs

/-- Stable sort by date (equal dates keep their relative order), as used by
`_process_section104_disposals`. -/
def sortByDate (l : List Order) : List Order :=
  l.foldl (fun acc o => insertByDate o acc) []

/-- Embedding of the order loop of
`TaxCalculator._process_section104_disposals` for one security, threading
the optional holding of that security (the Python loop re-reads
`self._holdings.get(isin)` each iteration and only ever touches this one
key).  An acquisition increases or creates the holding.  A disposal with
no holding raises `IncompleteRecordsError` in strict mode and warns and
breaks in lenient mode; otherwise the allowable cost
`holding.cost * quantity / holding.quantity` is extracted, a negative
resulting quantity raises in strict mode and deletes the holding and
breaks in lenient mode, a zero resulting quantity deletes the holding, and
the gain `CapitalGain(order, allowable_cost + fees.total)` is recorded. -/
def s104Loop (strict : Bool) :
    List Order → Option Section104 → List CapitalGain →
    Except Unit (Option Section104 × List CapitalGain)
  | [], h, gains => .ok (h, gains)
  | o :: rest, h, gains =>
      match o.side with
      | .acquisition =>
          match h with
          | some hh =>
              s104Loop strict rest (some (hh.increase o.quantity o.total)) gains
          | none =>
              s104Loop strict rest
                (some { quantity := o.quantity, cost := o.total }) gains
      | .disposal =>
          match h with
          | none => if strict then .error () else .ok (none, gains)
          | some hh =>
              let allowableCost := hh.cost * o.quantity / hh.quantity
              let hh2 := hh.decrease o.quantity allowableCost
              if hh2.quantity < 0 then
                if strict then .error () else .ok (none, gains)
              else
                let h2 := if hh2.quantity = 0 then none else some hh2
                s104Loop strict rest h2
                  (gains ++ [{ disposal := o,
                               cost := allowableCost + o.fees.total,
                               acquisitionDate := none }])

/-- Association-list lookup (`dict.get`). -/
def alGet {α : Type} (l : List (String × α)) (k : String) : Option α :=
  match l.find? (fun p => p.1 == k) with
  | some p => some p.2
  | none => none

/-- Association-list lookup with a default (`defaultdict` read). -/
def alGetD {α : Type} (l : List (String × α)) (k : String) (d : α) : α :=
  (alGet l k).getD d

/-- Association-list update (`dict[k] = v`): replaces in place if the key
is present, otherwise appends at the end, as Python dict insertion does. -/
def alSet {α : Type} : List (String × α) → String → α → List (String × α)
  | [], k, v => [(k, v)]
  | p :: t, k, v => if p.1 = k then (k, v) :: t else p :: alSet t k v

/-- Association-list deletion (`del dict[k]`). -/
def alDel {α : Type} : List (String × α) → String → List (String × α)
  | [], _ => []
  | p :: t, k => if p.1 = k then t else p :: alDel t k

/-- Embedding of `TaxCalculator._process_section104_disposals` for one
security: concatenate the surviving acquisitions and disposals, stable
sort by date, run the pool loop starting from the stored holding of that
security, and write the resulting holding back into the holdings dict
(deleting the entry when the holding is gone). -/
def processSection104 (strict : Bool) (isin : String)
    (acqs disps : List Order) (holdings : List (String × Section104))
    (gains : List CapitalGain) :
    Except Unit (List (String × Section104) × List CapitalGain) :=
  match s104Loop strict (sortByDate (acqs ++ disps)) (alGet holdings isin) []
  with
  | .error e => .error e
  | .ok (h, newGains) =>
      .ok (match h with
           | some hh => alSet holdings isin hh
           | none => alDel holdings isin,
           gains ++ newGains)

/-- The Section 104 stage of `_calculate_capital_gains`: the per-security
loop restricted to its pooling step, processing each security in turn.  A
strict-mode `IncompleteRecordsError` aborts the whole computation; under
lenient mode every security is processed. -/
def calcSecurities (strict : Bool) :
    List (String × List Order) → List (String × Section104) →
    List CapitalGain →
    Except Unit (List (String × Section104) × List CapitalGain)
  | [], holdings, gains => .ok (holdings, gains)
  | (isin, orders) :: rest, holdings, gains =>
      match s104Loop strict (sortByDate orders) (alGet holdings isin) [] with
      | .error e => .error e
      | .ok (h, newGains) =>
          calcSecurities strict rest
            (match h with
             | some hh => alSet holdings isin hh
             | none => alDel holdings isin)
            (gains ++ newGains)

/-- A key of the `same_day` grouping dict: `(isin, date, type)`. -/
structure GroupKey where
  isin : String
  date : ℤ
  side : Side
deriving DecidableEq

/-- Key of an order in the `same_day` grouping. -/
def Order.groupKey (o : Order) : GroupKey :=
  { isin := o.isin, date := o.date, side := o.side }

/-- Embedding of `TaxCalculator._group_same_day`: group the orders by
`(isin, date, type)` into a dict that keeps keys in first-occurrence order
and each group in encounter order. -/
def groupSameDay (orders : List Order) : List (GroupKey × List Order) :=
  orders.foldl
    (fun groups o =>
      if (groups.find? (fun p => p.1 = o.groupKey)).isSome then
        groups.map (fun p =>
          if p.1 = o.groupKey then (p.1, p.2 ++ [o]) else p)
      else groups ++ [(o.groupKey, [o])])
    []

/-- Embedding of `Order.adjust_quantity`: multiply the quantity by every
split ratio whose date is strictly after the order timestamp; when no
ratio applies the order passes through unchanged, otherwise the previous
quantity is kept in `originalQuantity` and a provenance note is set. -/
def Order.adjustQuantity (o : Order) (splits : List (ℤ × ℚ)) : Order :=
  let ratios := (splits.filter (fun s => o.timestamp < s.1)).map (fun s => s.2)
  if ratios.isEmpty then o
  else
    { o with
      quantity := ratios.foldl (· * ·) o.quantity,
      originalQuantity := some o.quantity,
      notes := some ("Adjusted from order " ++ toString o.number ++
        " after applying the following split ratios: " ++
        String.intercalate ", " (ratios.map (fun r => toString r))) }

/-- Embedding of `TaxCalculator._exclude_unallowable_costs` for one order:
a truthy forex fee is removed from the fee breakdown and the order total
is adjusted (subtracted for acquisitions, added back for disposals). -/
def excludeFx (o : Order) : Order :=
  if feeTruthy o.fees.forex then
    { o with
      total := if o.side = Side.acquisition then o.total - o.fees.forex.getD 0
               else o.total + o.fees.forex.getD 0,
      fees := { o.fees with forex := none },
      notes := some ("FX fees removed from order " ++ toString o.number) }
  else o

/-- State of a `TaxCalculator` instance.  `orders` and `securities` stand
for the transaction history collaborator (its deduplicated sorted order
list and its security enumeration), `splitsData` for the security-data
provider (split history per ISIN), `strict` and `includeFxFees` for the
configuration.  The four mutable dicts of the calculator are association
lists; capital gains are kept as one flat list in emission order (the
Python per-tax-year bucketing and the final per-year sort are a partition
and reordering of the same records, which no statement below depends
on: the bucket dict is truthy exactly when at least one gain exists). -/
structure TaxCalc where
  orders : List Order
  securities : List String
  splitsData : List (String × List (ℤ × ℚ))
  strict : Bool
  includeFxFees : Bool
  acquisitions : List (String × List Order)
  disposals : List (String × List Order)
  holdings : List (String × Section104)
  capitalGains : List CapitalGain
deriving DecidableEq

/-- Embedding of `TaxCalculator._normalise_orders`. -/
def TaxCalc.normalise (c : TaxCalc) : List Order :=
  c.orders.map (fun o => o.adjustQuantity (alGetD c.splitsData o.isin []))

/-- Embedding of `TaxCalculator._merge_same_day` for one security: each
group of that security (in dict order) contributes its single order, or
the merge of its orders, appended to the acquisition or disposal list of
the security according to its class. -/
def TaxCalc.mergeSameDay (c : TaxCalc) (isin : String)
    (groups : List (GroupKey × List Order)) : TaxCalc :=
  (groups.filter (fun p => p.1.isin = isin)).foldl
    (fun c p =>
      match p.2 with
      | [] => c
      | [o] =>
          match o.side with
          | Side.acquisition =>
              { c with acquisitions := (alSet c.acquisitions isin
                  (alGetD c.acquisitions isin [] ++ [o])) }
          | Side.disposal =>
              { c with disposals := (alSet c.disposals isin
                  (alGetD c.disposals isin [] ++ [o])) }
      | o :: rest =>
          let merged := o.mergeAll rest
          match merged.side with
          | Side.acquisition =>
              { c with acquisitions := (alSet c.acquisitions isin
                  (alGetD c.acquisitions isin [] ++ [merged])) }
          | Side.disposal =>
              { c with disposals := (alSet c.disposals isin
                  (alGetD c.disposals isin [] ++ [merged])) })
    c

/-- One pass of `_match_shares` on the stored per-security lists, writing
the survivors back and appending the emitted gains. -/
def TaxCalc.matchStage (c : TaxCalc) (isin : String)
    (f : Order → Order → Bool) : TaxCalc :=
  let r := matchShares f (alGetD c.acquisitions isin [])
    (alGetD c.disposals isin [])
  { c with
    acquisitions := alSet c.acquisitions isin r.1,
    disposals := alSet c.disposals isin r.2.1,
    capitalGains := c.capitalGains ++ r.2.2 }

/-- The body of the per-security loop of
`TaxCalculator._calculate_capital_gains`: merge same-day orders, match
under the same-day rule, match under the thirty-day rule, then process
the Section 104 pool. -/
def TaxCalc.perSecurity (c : TaxCalc)
    (groups : List (GroupKey × List Order)) (isin : String) :
    Except Unit TaxCalc := do
  let c := c.mergeSameDay isin groups
  let c := c.matchStage isin sameDayMatch
  let c := c.matchStage isin thirtyDaysMatch
  match processSection104 c.strict isin (alGetD c.acquisitions isin [])
      (alGetD c.disposals isin []) c.holdings c.capitalGains with
  | .error e => .error e
  | .ok (holdings, gains) =>
      .ok { c with holdings := holdings, capitalGains := gains }

/-- The per-security loop of `_calculate_capital_gains`: run
`perSecurity` for each known security in turn, propagating a strict-mode
error. -/
def TaxCalc.runSecurities (c : TaxCalc)
    (groups : List (GroupKey × List Order)) :
    List String → Except Unit TaxCalc
  | [] => .ok c
  | isin :: rest =>
      match c.perSecurity groups isin with
      | .error e => .error e
      | .ok c2 => c2.runSecurities groups rest

/-- The computation body of `_calculate_capital_gains`: normalise the
orders, optionally strip FX fees, group by `(isin, date, type)`, then run
the per-security pipeline for every known security.  The currency
validation always passes in this single-currency model, and the final
per-year reporting sort is omitted (see `TaxCalc`). -/
def TaxCalc.calcBody (c : TaxCalc) : Except Unit TaxCalc :=
  let orders := c.normalise
  let orders := if c.includeFxFees then orders else orders.map excludeFx
  let groups := groupSameDay orders
  c.runSecurities groups c.securities

/-- Embedding of `TaxCalculator._calculate_capital_gains` with its
memoization guard: if the capital-gains dict or the holdings dict is
non-empty the method returns immediately, otherwise the body runs. -/
def TaxCalc.calculate (c : TaxCalc) : Except Unit TaxCalc :=
  if ¬(c.capitalGains = []) ∨ ¬(c.holdings = []) then .ok c else c.calcBody

/-- Embedding of `Transactions.get_ticker_isin`: collect the distinct
ISINs of the orders carrying the ticker; none gives `None`, exactly one
is returned, more than one raises `AmbiguousTickerError`. -/
def getTickerIsin (orders : List Order) (ticker : String) :
    Except Unit (Option String) :=
  match ((orders.filter (fun o => o.ticker == some ticker)).map
      (fun o => o.isin)).dedup with
  | [] => .ok none
  | [i] => .ok (some i)
  | _ => .error ()

/-- Embedding of the ticker-filter branch of
`TaxCalculator.get_holdings_table`: `get_ticker_isin` is called inside a
`try`, an `AmbiguousTickerError` is caught and logged leaving the
holdings selection empty, and otherwise the single holding of the
resolved ISIN (if present) is selected. -/
def holdingsForTicker (orders : List Order)
    (holdings : List (String × Section104)) (ticker : String) :
    List (String × Section104) :=
  match getTickerIsin orders ticker with
  | .error _ => []
  | .ok none => []
  | .ok (some isin) =>
      match alGet holdings isin with
      | some h => [(isin, h)]
      | none => []

/-- Embedding of the row filter of `TaxCalculator.get_capital_gains_table`
for a ticker filter: a row is skipped exactly when the disposal ticker
differs from the filter; the ticker-to-ISIN mapping is never consulted. -/
def capitalGainsRows (gains : List CapitalGain) (ticker : Option String) :
    List CapitalGain :=
  gains.filter (fun cg =>
    match ticker with
    | none => true
    | some t => cg.disposal.ticker == some t)

/-- Builds a bare order for concrete examples. -/
def mkOrder (side : Side) (day : ℤ) (isin : String) (q total : ℚ) : Order :=
  { side := side, timestamp := day, total := total, isin := isin,
    quantity := q }

/-- C3. The thirty-day predicate holds exactly when the two orders share a
security and the acquisition date is strictly after the disposal date by
at most 30 days; equivalently, with a shared security, an acquisition
dated D + 1 through D + 30 matches a disposal dated D, while one dated at
most D or at least D + 31 does not. -/
theorem c3_thirty_days_predicate (a d : Order) :
    (thirtyDaysMatch a d = true ↔
      (a.isin = d.isin ∧ d.date < a.date ∧ a.date ≤ d.date + 30)) ∧
    (∀ k : ℤ, a.isin = d.isin → 1 ≤ k → k ≤ 30 → a.date = d.date + k →
      thirtyDaysMatch a d = true) ∧
    ((a.date ≤ d.date ∨ d.date + 31 ≤ a.date) →
      thirtyDaysMatch a d = false) := by
  refine ⟨by simp [thirtyDaysMatch], ?_, ?_⟩
  · intro k hisin h1 h30 hk
    simp only [thirtyDaysMatch, decide_eq_true_eq]
    exact ⟨hisin, by omega, by omega⟩
  · intro h
    simp only [thirtyDaysMatch, decide_eq_false_iff_not]
    intro hcon
    rcases hcon with ⟨-, h2, h3⟩
    omega

/-- Witness for C3: with disposal date 0, an acquisition on day 30 matches
and one on day 31 does not. -/
theorem c3_witness :
    thirtyDaysMatch (mkOrder Side.acquisition 30 "X" 1 1)
      (mkOrder Side.disposal 0 "X" 1 1) = true ∧
    thirtyDaysMatch (mkOrder Side.acquisition 31 "X" 1 1)
      (mkOrder Side.disposal 0 "X" 1 1) = false := by
  constructor
  · exact (c3_thirty_days_predicate _ _).2.1 30 rfl (by decide) (by decide)
      (by decide)
  · exact (c3_thirty_days_predicate _ _).2.2 (Or.inr (by decide))

/-- Value of the matched portion of one fee component: dividing then
multiplying a component under Python truthiness gives exactly the
proportional share, read as a decimal value. -/
theorem feeVal_div_mul (c : Option ℚ) (q0 q : ℚ) (h0 : q0 ≠ 0) :
    feeVal (feeMul (feeDiv c q0) q) = feeVal c * q / q0 := by
  cases c with
  | none => simp [feeDiv, feeMul, feeTruthy, feeVal]
  | some v =>
      by_cases hv : v = 0
      · simp [feeDiv, feeMul, feeTruthy, feeVal, hv]
      · have hdiv : v / q0 ≠ 0 := div_ne_zero hv h0
        simp [feeDiv, feeMul, feeTruthy, feeVal, hv, hdiv,
          div_mul_eq_mul_div]

/-- Concrete order used by the split witnesses: quantity 4, total 100, a
charge fee of 2 and a stamp-duty fee of 3. -/
def exSplitOrder : Order :=
  { side := Side.acquisition, timestamp := 0, total := 100, isin := "X",
    quantity := 4,
    fees := { charge := some 2, stampDuty := some 3 } }

/-- C5 amended. In exact rational arithmetic, for every order with
positive quantity and a requested split quantity at most the order
quantity, the matched portion returned by `Order.split` has total
exactly `total * q / quantity` and every fee component exactly the value
`fee * q / quantity`.  The program itself evaluates
`total / quantity * q` under the 28-significant-digit Decimal context,
which can differ from `total * q / quantity` in the last significant
digit (see the Decimal-context counterexample below), so the exact
equality holds of the idealized arithmetic, not of every program run. -/
theorem c5_split_match_proportional (o : Order) (q : ℚ)
    (h0 : 0 < o.quantity) (h2 : q ≤ o.quantity) :
    (o.split q).1.total = o.total * q / o.quantity ∧
    feeVal (o.split q).1.fees.charge =
      feeVal o.fees.charge * q / o.quantity ∧
    feeVal (o.split q).1.fees.stampDuty =
      feeVal o.fees.stampDuty * q / o.quantity ∧
    feeVal (o.split q).1.fees.forex =
      feeVal o.fees.forex * q / o.quantity ∧
    feeVal (o.split q).1.fees.finra =
      feeVal o.fees.finra * q / o.quantity ∧
    feeVal (o.split q).1.fees.sec =
      feeVal o.fees.sec * q / o.quantity ∧
    feeVal (o.split q).1.fees.french =
      feeVal o.fees.french * q / o.quantity := by
  have hq0 : o.quantity ≠ 0 := ne_of_gt h0
  simp only [Order.split, Fees.mul, Fees.div]
  exact ⟨div_mul_eq_mul_div _ _ _,
    feeVal_div_mul _ _ _ hq0, feeVal_div_mul _ _ _ hq0,
    feeVal_div_mul _ _ _ hq0, feeVal_div_mul _ _ _ hq0,
    feeVal_div_mul _ _ _ hq0, feeVal_div_mul _ _ _ hq0⟩

/-- Witness for C5 at quantity 4 split at 1: the matched total is
100 * 1 / 4 = 25 and the matched charge value is 2 * 1 / 4 = 1 / 2. -/
theorem c5_witness :
    (0 : ℚ) < exSplitOrder.quantity ∧ (1 : ℚ) ≤ exSplitOrder.quantity ∧
    (exSplitOrder.split 1).1.total =
      exSplitOrder.total * 1 / exSplitOrder.quantity := by
  refine ⟨by decide, by decide, ?_⟩
  exact (c5_split_match_proportional exSplitOrder 1 (by decide)
    (by decide)).1

/-- Rounding of one arithmetic result under the execution platform of the
source: the Python `decimal` module default context, which keeps 28
significant digits and rounds half to even.  A non-zero value is scaled
so that 28 digits sit left of the point, the scaled value is rounded
half-even to an integer, and the result is scaled back. -/
def decRound (x : ℚ) : ℚ :=
  if x = 0 then 0
  else
    let s : ℤ := 27 - Int.log 10 |x|
    let y : ℚ := |x| * (10 : ℚ) ^ s
    let c : ℤ :=
      if y - ⌊y⌋ < 1 / 2 then ⌊y⌋
      else if 1 / 2 < y - ⌊y⌋ then ⌊y⌋ + 1
      else if ⌊y⌋ % 2 = 0 then ⌊y⌋ else ⌊y⌋ + 1
    (if x < 0 then -(c : ℚ) else (c : ℚ)) / (10 : ℚ) ^ s

/-- Division of `Decimal` values under the default context: the exact
quotient rounded to 28 significant digits. -/
def decDiv (a b : ℚ) : ℚ := decRound (a / b)

/-- Multiplication of `Decimal` values under the default context: the
exact product rounded to 28 significant digits. -/
def decMul (a b : ℚ) : ℚ := decRound (a * b)

/-- The matched-portion total that `Order.split` computes on the actual
execution platform: `self.total / self.quantity * split_quantity`
evaluated left to right in context-rounded `Decimal` arithmetic. -/
def splitMatchTotalDec (total quantity q : ℚ) : ℚ :=
  decMul (decDiv total quantity) q

lemma dec_div_10_3 : decDiv 10 3 =
    3333333333333333333333333333 / 10 ^ 27 := by
  have hne : ¬((10 : ℚ) / 3 = 0) := by norm_num
  have habs : |(10 : ℚ) / 3| = 10 / 3 := by
    rw [abs_of_pos]
    norm_num
  have hfl : ⌊(10 : ℚ) / 3⌋₊ = 3 := by
    rw [Nat.floor_eq_iff (by norm_num)]
    norm_num
  have hlog : Int.log 10 ((10 : ℚ) / 3) = 0 := by
    rw [Int.log_of_one_le_right 10 (by norm_num : (1 : ℚ) ≤ 10 / 3), hfl]
    simp [Nat.log_eq_zero_iff]
  simp only [decDiv, decRound, hne, if_neg, habs, hlog]
  norm_num

lemma dec_mul_result :
    decMul (3333333333333333333333333333 / 10 ^ 27) 2 =
      6666666666666666666666666666 / 10 ^ 27 := by
  have hx : (3333333333333333333333333333 / 10 ^ 27 : ℚ) * 2 =
      6666666666666666666666666666 / 10 ^ 27 := by norm_num
  have hne : ¬((6666666666666666666666666666 / 10 ^ 27 : ℚ) = 0) := by
    norm_num
  have habs : |(6666666666666666666666666666 / 10 ^ 27 : ℚ)| =
      6666666666666666666666666666 / 10 ^ 27 := by
    rw [abs_of_pos]
    norm_num
  have hfl : ⌊(6666666666666666666666666666 / 10 ^ 27 : ℚ)⌋₊ = 6 := by
    rw [Nat.floor_eq_iff (by norm_num)]
    norm_num
  have hlog : Int.log 10 ((6666666666666666666666666666 / 10 ^ 27 : ℚ)) =
      0 := by
    rw [Int.log_of_one_le_right 10 (by norm_num), hfl]
    simp [Nat.log_eq_zero_iff]
  simp only [decMul, hx, decRound, hne, if_neg, habs, hlog]
  norm_num

lemma nat_log_10_20 : Nat.log 10 20 = 1 :=
  Nat.log_eq_of_pow_le_of_lt_pow (by norm_num) (by norm_num)

lemma dec_mul_10_2 : decMul 10 2 = 20 := by
  have hx : (10 : ℚ) * 2 = 20 := by norm_num
  have hne : ¬((20 : ℚ) = 0) := by norm_num
  have habs : |(20 : ℚ)| = 20 := by
    rw [abs_of_pos] <;> norm_num
  have hfl : ⌊(20 : ℚ)⌋₊ = 20 := by
    rw [Nat.floor_eq_iff (by norm_num)]
    norm_num
  have hlog : Int.log 10 (20 : ℚ) = 1 := by
    rw [Int.log_of_one_le_right 10 (by norm_num), hfl, nat_log_10_20]
    rfl
  simp only [decMul, hx, decRound, hne, if_neg, habs, hlog]
  norm_num

lemma dec_div_20_3 : decDiv 20 3 =
    6666666666666666666666666667 / 10 ^ 27 := by
  have hne : ¬((20 : ℚ) / 3 = 0) := by norm_num
  have habs : |(20 : ℚ) / 3| = 20 / 3 := by
    rw [abs_of_pos]
    norm_num
  have hfl : ⌊(20 : ℚ) / 3⌋₊ = 6 := by
    rw [Nat.floor_eq_iff (by norm_num)]
    norm_num
  have hlog : Int.log 10 ((20 : ℚ) / 3) = 0 := by
    rw [Int.log_of_one_le_right 10 (by norm_num : (1 : ℚ) ≤ 20 / 3), hfl]
    simp [Nat.log_eq_zero_iff]
  simp only [decDiv, decRound, hne, if_neg, habs, hlog]
  norm_num

/-- Counterexample for C5: under the 28-significant-digit Decimal context
the program runs on, splitting an order of total 10 and quantity 3 at
quantity 2 gives a matched total of 6.666666666666666666666666666
(computed as `total / quantity * split_quantity`), which differs from the
claimed exact proportional share `total * split_quantity / quantity`,
whether the latter is read as the exact rational 20 / 3 or as its
Decimal rendering 6.666666666666666666666666667. -/
theorem c5_counterexample :
    splitMatchTotalDec 10 3 2 ≠ 10 * 2 / 3 ∧
    splitMatchTotalDec 10 3 2 ≠ decDiv (decMul 10 2) 3 := by
  have h1 : splitMatchTotalDec 10 3 2 =
      6666666666666666666666666666 / 10 ^ 27 := by
    rw [splitMatchTotalDec, dec_div_10_3, dec_mul_result]
  constructor
  · rw [h1]
    norm_num
  · rw [h1, dec_mul_10_2, dec_div_20_3]
    norm_num

/-- Membership in the result of `insertByDate`. -/
theorem mem_insertByDate (x o : Order) (l : List Order) :
    x ∈ insertByDate o l ↔ x = o ∨ x ∈ l := by
  induction l with
  | nil => simp [insertByDate]
  | cons y ys ih =>
      by_cases h : y.date ≤ o.date
      · simp [insertByDate, h, ih]
        tauto
      · simp [insertByDate, h]

/-- Every element of the stable date sort comes from the input list. -/
theorem mem_sortByDate (x : Order) (l : List Order) :
    x ∈ sortByDate l → x ∈ l := by
  suffices h : ∀ acc, x ∈ l.foldl (fun acc o => insertByDate o acc) acc →
      x ∈ acc ∨ x ∈ l by
    intro hx
    rcases h [] hx with h1 | h1
    · simp at h1
    · exact h1
  induction l with
  | nil => intro acc h; simp_all
  | cons y ys ih =>
      intro acc h
      rcases ih (insertByDate y acc) h with h1 | h1
      · rcases (mem_insertByDate x y acc).mp h1 with h2 | h2
        · simp [h2]
        · exact Or.inl h2
      · simp [h1]

/-- Unfolding of the association-list lookup over a cons cell. -/
theorem alGet_cons {α : Type} (q : String × α) (t : List (String × α))
    (k : String) :
    alGet (q :: t) k = if q.1 = k then some q.2 else alGet t k := by
  by_cases h : q.1 = k <;> simp [alGet, List.find?_cons, h]

/-- A successful association-list lookup is a member. -/
theorem alGet_mem {α : Type} (l : List (String × α)) (k : String) (v : α) :
    alGet l k = some v → (k, v) ∈ l := by
  induction l with
  | nil => simp [alGet]
  | cons p t ih =>
      rw [alGet_cons]
      by_cases h : p.1 = k
      · simp only [h, if_pos]
        intro hv
        cases p
        simp_all
      · simp only [h, if_neg, not_false_eq_true]
        intro hv
        exact List.mem_cons_of_mem _ (ih hv)

/-- Members of an updated association list are the new pair or old
members. -/
theorem alSet_mem {α : Type} (l : List (String × α)) (k : String) (v : α)
    (p : String × α) : p ∈ alSet l k v → p = (k, v) ∨ p ∈ l := by
  induction l with
  | nil => simp [alSet]
  | cons q t ih =>
      by_cases h : q.1 = k
      · simp [alSet, h]
        tauto
      · simp [alSet, h]
        intro hp
        rcases hp with hp | hp
        · tauto
        · rcases ih hp with h1 | h1 <;> tauto

/-- Members of an association list with a key deleted are old members. -/
theorem alDel_mem {α : Type} (l : List (String × α)) (k : String)
    (p : String × α) : p ∈ alDel l k → p ∈ l := by
  induction l with
  | nil => simp [alDel]
  | cons q t ih =>
      by_cases h : q.1 = k
      · simp [alDel, h]
        tauto
      · simp [alDel, h]
        intro hp
        rcases hp with hp | hp <;> tauto

/-- Deleting an absent key leaves the association list unchanged. -/
theorem alDel_of_alGet_none {α : Type} (l : List (String × α)) (k : String)
    (h : alGet l k = none) : alDel l k = l := by
  induction l with
  | nil => simp [alDel]
  | cons q t ih =>
      rw [alGet_cons] at h
      by_cases hq : q.1 = k
      · simp [hq] at h
      · simp only [hq, if_neg, not_false_eq_true] at h
        simp [alDel, hq, ih h]

/-- C6. Processing one disposal against an existing holding extracts
allowable cost `holding.cost * quantity / holding.quantity`, decreases
the holding by exactly that quantity and cost (removing it when the
quantity reaches zero), and emits a gain whose cost is the allowable cost
plus the disposal fee total and which has no acquisition date. -/
theorem c6_section104_disposal (strict : Bool) (d : Order) (h : Section104)
    (gains : List CapitalGain) (hside : d.side = Side.disposal)
    (hq : 0 < h.quantity) (hle : d.quantity ≤ h.quantity) :
    s104Loop strict [d] (some h) gains = .ok
      ((if h.quantity - d.quantity = 0 then none
        else some (h.decrease d.quantity
          (h.cost * d.quantity / h.quantity))),
       gains ++ [{ disposal := d,
                   cost := h.cost * d.quantity / h.quantity + d.fees.total,
                   acquisitionDate := none }]) := by
  have hnn : ¬((h.decrease d.quantity
      (h.cost * d.quantity / h.quantity)).quantity < 0) := by
    simp only [Section104.decrease]
    linarith
  simp only [s104Loop, hside, hnn, if_neg, not_false_eq_true]
  by_cases hz : (h.decrease d.quantity
      (h.cost * d.quantity / h.quantity)).quantity = 0
  · have hz2 : h.quantity - d.quantity = 0 := by
      simpa [Section104.decrease] using hz
    simp [s104Loop, hz, hz2]
  · have hz2 : ¬(h.quantity - d.quantity = 0) := by
      simpa [Section104.decrease] using hz
    simp [s104Loop, hz, hz2]

/-- Witness for C6: a pool built by acquiring 10 units at cost 100 and 10
at cost 200 holds quantity 20 and cost 300; disposing of 5 units extracts
allowable cost 75 and leaves quantity 15 and cost 225. -/
theorem c6_witness :
    s104Loop true [mkOrder Side.acquisition 0 "X" 10 100,
      mkOrder Side.acquisition 1 "X" 10 200] none [] =
      .ok (some { quantity := 20, cost := 300 }, []) ∧
    (mkOrder Side.disposal 2 "X" 5 0).side = Side.disposal ∧
    (0 : ℚ) < (20 : ℚ) ∧ (5 : ℚ) ≤ (20 : ℚ) ∧
    s104Loop true [mkOrder Side.disposal 2 "X" 5 0]
      (some { quantity := 20, cost := 300 }) [] =
      .ok (some { quantity := 15, cost := 225 },
        [{ disposal := mkOrder Side.disposal 2 "X" 5 0, cost := 75,
           acquisitionDate := none }]) := by
  refine ⟨by norm_num [s104Loop, mkOrder, Section104.increase], by rfl,
    by norm_num, by norm_num, ?_⟩
  have h := c6_section104_disposal true (mkOrder Side.disposal 2 "X" 5 0)
    { quantity := 20, cost := 300 } [] rfl (by norm_num [mkOrder])
    (by norm_num [mkOrder])
  rw [h]
  norm_num [Section104.decrease, mkOrder, Fees.total, feeTruthy]

/-- Invariant of the Section 104 order loop: when every processed order
has positive quantity and the incoming holding (if any) has positive
quantity, a holding surviving a successful run has positive quantity. -/
theorem s104Loop_pos (strict : Bool) (orders : List Order)
    (h0 : Option Section104) (gains : List CapitalGain)
    (hord : ∀ o ∈ orders, 0 < o.quantity)
    (hh : ∀ hh, h0 = some hh → 0 < hh.quantity) :
    ∀ res, s104Loop strict orders h0 gains = .ok res →
      ∀ hh, res.1 = some hh → 0 < hh.quantity := by
  induction orders generalizing h0 gains with
  | nil =>
      intro res hres hh2 h2
      simp only [s104Loop] at hres
      cases hres
      exact hh hh2 h2
  | cons o rest ih =>
      intro res hres hh2 h2
      have ho : 0 < o.quantity := hord o (by simp)
      have hord2 : ∀ x ∈ rest, 0 < x.quantity := fun x hx =>
        hord x (by simp [hx])
      rcases hs : o.side with _ | _
      · -- acquisition
        cases h0 with
        | some hcur =>
            simp only [s104Loop, hs] at hres
            refine ih _ _ hord2 ?_ res hres hh2 h2
            intro hh3 hh3e
            cases hh3e
            have := hh hcur rfl
            simp only [Section104.increase]
            linarith
        | none =>
            simp only [s104Loop, hs] at hres
            refine ih _ _ hord2 ?_ res hres hh2 h2
            intro hh3 hh3e
            cases hh3e
            simpa using ho
      · -- disposal
        cases h0 with
        | none =>
            simp only [s104Loop, hs] at hres
            cases hstrict : strict
            · simp [hstrict] at hres
              cases hres
              simp at h2
            · simp [hstrict] at hres
        | some hcur =>
            simp only [s104Loop, hs] at hres
            by_cases hneg : (hcur.decrease o.quantity
                (hcur.cost * o.quantity / hcur.quantity)).quantity < 0
            · rw [if_pos hneg] at hres
              cases hstrict : strict
              · simp [hstrict] at hres
                cases hres
                simp at h2
              · simp [hstrict] at hres
            · rw [if_neg hneg] at hres
              by_cases hz : (hcur.decrease o.quantity
                  (hcur.cost * o.quantity / hcur.quantity)).quantity = 0
              · rw [if_pos hz] at hres
                refine ih _ _ hord2 ?_ res hres hh2 h2
                intro hh3 hh3e
                cases hh3e
              · rw [if_neg hz] at hres
                refine ih _ _ hord2 ?_ res hres hh2 h2
                intro hh3 hh3e
                cases hh3e
                push_neg at hneg
                exact lt_of_le_of_ne hneg (Ne.symm hz)

/-- C7. Holdings retained by the pool are strictly positive: a successful
run of the Section 104 order loop never leaves a holding at zero or
negative quantity, a disposal of exactly the full holding quantity
removes the holding entirely (the resulting holding is `none`, so a
holding query returns nothing), and every holding stored in the
per-security holdings dict after the Section 104 stage has strictly
positive quantity. -/
theorem c7_pool_positive :
    (∀ (strict : Bool) (orders : List Order) (h0 : Option Section104)
        (gains : List CapitalGain)
        (res : Option Section104 × List CapitalGain),
        (∀ o ∈ orders, 0 < o.quantity) →
        (∀ hh, h0 = some hh → 0 < hh.quantity) →
        s104Loop strict orders h0 gains = .ok res →
        ∀ hh, res.1 = some hh → 0 < hh.quantity) ∧
    (∀ (strict : Bool) (d : Order) (hh : Section104)
        (gains : List CapitalGain),
        d.side = Side.disposal → d.quantity = hh.quantity →
        s104Loop strict [d] (some hh) gains = .ok (none,
          gains ++ [{ disposal := d,
                      cost := hh.cost * d.quantity / hh.quantity +
                        d.fees.total,
                      acquisitionDate := none }])) ∧
    (∀ (strict : Bool) (secs : List (String × List Order))
        (holdings : List (String × Section104)) (gains : List CapitalGain)
        (res : List (String × Section104) × List CapitalGain),
        (∀ p ∈ secs, ∀ o ∈ p.2, 0 < o.quantity) →
        (∀ p ∈ holdings, 0 < p.2.quantity) →
        calcSecurities strict secs holdings gains = .ok res →
        ∀ p ∈ res.1, 0 < p.2.quantity) := by
  refine ⟨?_, ?_, ?_⟩
  · intro strict orders h0 gains res h1 h2 h3
    exact s104Loop_pos strict orders h0 gains h1 h2 res h3
  · intro strict d hh gains hside hquant
    have hz : (hh.decrease d.quantity
        (hh.cost * d.quantity / hh.quantity)).quantity = 0 := by
      simp [Section104.decrease, hquant]
    have hnn : ¬((hh.decrease d.quantity
        (hh.cost * d.quantity / hh.quantity)).quantity < 0) := by
      rw [hz]
      exact lt_irrefl 0
    simp only [s104Loop, hside, hnn, if_neg, not_false_eq_true, hz, if_pos]
    simp
  · intro strict secs
    induction secs with
    | nil =>
        intro holdings gains res hsec hhold hres
        simp only [calcSecurities] at hres
        cases hres
        exact hhold
    | cons sec rest ih =>
        intro holdings gains res hsec hhold hres
        rcases sec with ⟨isin, os⟩
        simp only [calcSecurities] at hres
        cases hrun : s104Loop strict (sortByDate os) (alGet holdings isin)
          [] with
        | error e => rw [hrun] at hres; cases hres
        | ok pr =>
            rw [hrun] at hres
            have hos : ∀ o ∈ sortByDate os, 0 < o.quantity := fun o ho =>
              hsec (isin, os) (by simp) o (mem_sortByDate o os ho)
            have hinit : ∀ hh, alGet holdings isin = some hh →
                0 < hh.quantity := by
              intro hh hget
              exact hhold (isin, hh) (alGet_mem holdings isin hh hget)
            have hrest : ∀ p ∈ rest, ∀ o ∈ p.2, 0 < o.quantity :=
              fun p hp o ho => hsec p (by simp [hp]) o ho
            cases hh : pr.1 with
            | some hval =>
                have hpos : 0 < hval.quantity :=
                  s104Loop_pos strict (sortByDate os) (alGet holdings isin)
                    [] hos hinit pr hrun hval hh
                rcases pr with ⟨h1, g1⟩
                cases hh
                refine ih _ _ res hrest ?_ hres
                intro p hp
                rcases alSet_mem holdings isin hval p hp with h | h
                · rw [h]
                  exact hpos
                · exact hhold p h
            | none =>
                rcases pr with ⟨h1, g1⟩
                cases hh
                refine ih _ _ res hrest ?_ hres
                intro p hp
                exact hhold p (alDel_mem holdings isin p hp)

/-- Witness for C7: disposing of the full quantity 20 of a holding of
quantity 20 and cost 300 deletes the pool entry. -/
theorem c7_witness :
    (mkOrder Side.disposal 2 "X" 20 100).side = Side.disposal ∧
    (mkOrder Side.disposal 2 "X" 20 100).quantity =
      ({ quantity := 20, cost := 300 } : Section104).quantity ∧
    s104Loop true [mkOrder Side.disposal 2 "X" 20 100]
      (some { quantity := 20, cost := 300 }) [] =
      .ok (none,
        [{ disposal := mkOrder Side.disposal 2 "X" 20 100,
           cost := ({ quantity := 20, cost := 300 } : Section104).cost *
             (mkOrder Side.disposal 2 "X" 20 100).quantity /
             ({ quantity := 20, cost := 300 } : Section104).quantity +
             (mkOrder Side.disposal 2 "X" 20 100).fees.total,
           acquisitionDate := none }]) := by
  refine ⟨rfl, rfl, ?_⟩
  exact c7_pool_positive.2.1 true (mkOrder Side.disposal 2 "X" 20 100)
    { quantity := 20, cost := 300 } [] rfl rfl

/-- C8. A pool disposal with no holding for its security, or one that
would drive the holding quantity negative, signals the incomplete-records
condition: under strict mode the Section 104 stage aborts the whole
computation with an error, while under lenient mode the security is
dropped (its holding entry and any remaining gains are discarded) and the
stage continues with the other securities exactly as if the broken
security were absent. -/
theorem c8_incomplete_records :
    (∀ (i : String) (d : Order) (rest : List (String × List Order))
        (holdings : List (String × Section104)) (gains : List CapitalGain),
        d.side = Side.disposal → alGet holdings i = none →
        calcSecurities true ((i, [d]) :: rest) holdings gains =
          .error ()) ∧
    (∀ (i : String) (d : Order) (rest : List (String × List Order))
        (holdings : List (String × Section104)) (gains : List CapitalGain),
        d.side = Side.disposal → alGet holdings i = none →
        calcSecurities false ((i, [d]) :: rest) holdings gains =
          calcSecurities false rest holdings gains) ∧
    (∀ (i : String) (a d : Order) (rest : List (String × List Order))
        (holdings : List (String × Section104)) (gains : List CapitalGain),
        a.side = Side.acquisition → d.side = Side.disposal →
        a.date ≤ d.date → a.quantity < d.quantity →
        alGet holdings i = none →
        calcSecurities true ((i, [a, d]) :: rest) holdings gains =
          .error ()) ∧
    (∀ (i : String) (a d : Order) (rest : List (String × List Order))
        (holdings : List (String × Section104)) (gains : List CapitalGain),
        a.side = Side.acquisition → d.side = Side.disposal →
        a.date ≤ d.date → a.quantity < d.quantity →
        alGet holdings i = none →
        calcSecurities false ((i, [a, d]) :: rest) holdings gains =
          calcSecurities false rest holdings gains) := by
  have hsort1 : ∀ d : Order, sortByDate [d] = [d] := by
    intro d
    simp [sortByDate, insertByDate]
  have hsort2 : ∀ a d : Order, a.date ≤ d.date →
      sortByDate [a, d] = [a, d] := by
    intro a d h
    simp [sortByDate, insertByDate, h]
  have hrun1 : ∀ (strict : Bool) (d : Order), d.side = Side.disposal →
      s104Loop strict [d] none [] =
        (if strict then .error () else .ok (none, [])) := by
    intro strict d hside
    simp [s104Loop, hside]
  have hrun2 : ∀ (strict : Bool) (a d : Order),
      a.side = Side.acquisition → d.side = Side.disposal →
      a.quantity < d.quantity →
      s104Loop strict [a, d] none [] =
        (if strict then .error () else .ok (none, [])) := by
    intro strict a d hsa hsd hlt
    have hneg : (({ quantity := a.quantity, cost := a.total } :
        Section104).decrease d.quantity
        (({ quantity := a.quantity, cost := a.total } :
          Section104).cost * d.quantity /
          ({ quantity := a.quantity, cost := a.total } :
            Section104).quantity)).quantity < 0 := by
      show a.quantity - d.quantity < 0
      linarith
    simp [s104Loop, hsa, hsd, hneg]
  refine ⟨?_, ?_, ?_, ?_⟩
  · intro i d rest holdings gains hside hget
    simp only [calcSecurities, hsort1, hget, hrun1 true d hside, if_pos]
  · intro i d rest holdings gains hside hget
    simp only [calcSecurities, hsort1, hget, hrun1 false d hside, if_neg,
      Bool.false_eq_true, not_false_eq_true]
    rw [alDel_of_alGet_none holdings i hget]
    rw [List.append_nil]
  · intro i a d rest holdings gains hsa hsd hdate hlt hget
    simp only [calcSecurities, hsort2 a d hdate, hget,
      hrun2 true a d hsa hsd hlt, if_pos]
  · intro i a d rest holdings gains hsa hsd hdate hlt hget
    simp only [calcSecurities, hsort2 a d hdate, hget,
      hrun2 false a d hsa hsd hlt, if_neg, Bool.false_eq_true,
      not_false_eq_true]
    rw [alDel_of_alGet_none holdings i hget]
    rw [List.append_nil]

/-- Witness for C8: a single security holding only a disposal errors under
strict mode and is skipped under lenient mode. -/
theorem c8_witness :
    (mkOrder Side.disposal 0 "X" 5 50).side = Side.disposal ∧
    alGet ([] : List (String × Section104)) "X" = none ∧
    calcSecurities true [("X", [mkOrder Side.disposal 0 "X" 5 50])] [] [] =
      .error () ∧
    calcSecurities false [("X", [mkOrder Side.disposal 0 "X" 5 50])] [] [] =
      calcSecurities false [] [] [] := by
  refine ⟨rfl, rfl, ?_, ?_⟩
  · exact c8_incomplete_records.1 "X" (mkOrder Side.disposal 0 "X" 5 50)
      [] [] [] rfl rfl
  · exact c8_incomplete_records.2.1 "X" (mkOrder Side.disposal 0 "X" 5 50)
      [] [] [] rfl rfl

/-- C2. When the per-security lists hold exactly one acquisition and one
disposal of the same quantity on the same date, the same-day rule fully
consumes both and produces exactly one gain whose cost is the acquisition
total plus the disposal fee total, whose acquisition date is the disposal
date (so its identification is the same-day label), and whose gain is the
gross proceeds of the disposal minus that cost. -/
theorem c2_same_day_rule (a d : Order)
    (hsa : a.side = Side.acquisition) (hsd : d.side = Side.disposal)
    (hisin : a.isin = d.isin) (hdate : a.date = d.date)
    (hq : a.quantity = d.quantity) :
    matchShares sameDayMatch [a] [d] =
      ([], [], [{ disposal := d, cost := a.total + d.fees.total,
                  acquisitionDate := some d.date }]) ∧
    ({ disposal := d, cost := a.total + d.fees.total,
       acquisitionDate := some d.date } : CapitalGain).identification =
      "Same day" ∧
    ({ disposal := d, cost := a.total + d.fees.total,
       acquisitionDate := some d.date } : CapitalGain).gain =
      d.grossProceeds - (a.total + d.fees.total) := by
  have hmatch : sameDayMatch a d = true := by
    simp [sameDayMatch, hisin, hdate]
  refine ⟨?_, ?_, ?_⟩
  · simp [matchShares, matchRun, matchLoopF, hmatch, memP, mkGain, hq,
      hdate, lt_self_iff_false]
  · simp [CapitalGain.identification]
  · simp [CapitalGain.gain]

/-- Acquisition of the end-to-end same-day scenario: 100 units for a
total of 1000 on day 10. -/
def exSameDayAcq : Order := mkOrder Side.acquisition 10 "X" 100 1000

/-- Disposal of the end-to-end same-day scenario: 100 units for a total
of 1500 on day 10. -/
def exSameDayDisp : Order := mkOrder Side.disposal 10 "X" 100 1500

/-- Witness for C2: the concrete end-to-end scenario produces one gain
with cost 1000, identification Same day and gain 500. -/
theorem c2_witness :
    exSameDayAcq.side = Side.acquisition ∧
    exSameDayDisp.side = Side.disposal ∧
    exSameDayAcq.isin = exSameDayDisp.isin ∧
    exSameDayAcq.date = exSameDayDisp.date ∧
    exSameDayAcq.quantity = exSameDayDisp.quantity ∧
    matchShares sameDayMatch [exSameDayAcq] [exSameDayDisp] =
      ([], [], [{ disposal := exSameDayDisp, cost := 1000,
                  acquisitionDate := some 10 }]) ∧
    ({ disposal := exSameDayDisp, cost := 1000,
       acquisitionDate := some 10 } : CapitalGain).identification =
      "Same day" ∧
    ({ disposal := exSameDayDisp, cost := 1000,
       acquisitionDate := some 10 } : CapitalGain).gain = 500 := by
  have h := c2_same_day_rule exSameDayAcq exSameDayDisp rfl rfl rfl rfl rfl
  refine ⟨rfl, rfl, rfl, rfl, rfl, ?_, ?_, ?_⟩
  · rw [h.1]
    norm_num [exSameDayAcq, exSameDayDisp, mkOrder, Fees.total, feeTruthy,
      Order.date]
  · rfl
  · norm_num [CapitalGain.gain, Order.grossProceeds, Fees.total,
      feeTruthy, exSameDayDisp, mkOrder]

/-- First order of the ambiguous-ticker scenario: ticker T on ISIN I1. -/
def exAmb1 : Order :=
  { side := Side.acquisition, timestamp := 0, total := 10, isin := "I1",
    ticker := some "T", quantity := 1 }

/-- Second order of the ambiguous-ticker scenario: ticker T on ISIN I2. -/
def exAmb2 : Order :=
  { side := Side.acquisition, timestamp := 1, total := 10, isin := "I2",
    ticker := some "T", quantity := 1 }

/-- Disposal with ticker T on ISIN I1 for the gains-table scenario. -/
def exAmbD1 : Order :=
  { side := Side.disposal, timestamp := 2, total := 10, isin := "I1",
    ticker := some "T", quantity := 1 }

/-- Disposal with ticker T on ISIN I2 for the gains-table scenario. -/
def exAmbD2 : Order :=
  { side := Side.disposal, timestamp := 3, total := 10, isin := "I2",
    ticker := some "T", quantity := 1 }

/-- Counterexample for C10: ticker T maps to the two ISINs I1 and I2, so
`get_ticker_isin` raises the ambiguous-ticker error, yet neither query
raises it to the caller: the holdings-table query catches the error and
returns normally with no holdings selected, and the capital-gains-table
query never consults the mapping and returns the rows of both securities
normally. -/
theorem c10_counterexample :
    getTickerIsin [exAmb1, exAmb2] "T" = .error () ∧
    holdingsForTicker [exAmb1, exAmb2]
      [("I1", { quantity := 1, cost := 10 })] "T" = [] ∧
    capitalGainsRows
      [{ disposal := exAmbD1, cost := 5 },
       { disposal := exAmbD2, cost := 6 }] (some "T") =
      [{ disposal := exAmbD1, cost := 5 },
       { disposal := exAmbD2, cost := 6 }] := by
  refine ⟨rfl, rfl, rfl⟩

/-- C10 amended. When a ticker maps to more than one security identifier,
`Transactions.get_ticker_isin` raises the ambiguous-ticker error, but a
ticker-filtered query does not propagate it: the holdings-table query
catches the error, logs it, and selects no holdings (the
capital-gains-table query filters rows by the ticker field and never
consults the ticker-to-ISIN mapping at all, see `capitalGainsRows`). -/
theorem c10_ambiguous_ticker (orders : List Order) (t : String)
    (holdings : List (String × Section104))
    (h2 : 2 ≤ (((orders.filter (fun o => o.ticker == some t)).map
      (fun o => o.isin)).dedup).length) :
    getTickerIsin orders t = .error () ∧
    holdingsForTicker orders holdings t = [] := by
  have herr : getTickerIsin orders t = .error () := by
    unfold getTickerIsin
    cases hd : ((orders.filter (fun o => o.ticker == some t)).map
        (fun o => o.isin)).dedup with
    | nil => rw [hd] at h2; simp at h2
    | cons x xs =>
        cases xs with
        | nil => rw [hd] at h2; simp at h2
        | cons y ys => rfl
  refine ⟨herr, ?_⟩
  unfold holdingsForTicker
  rw [herr]

/-- Witness for C10 amended, at the concrete two-ISIN history. -/
theorem c10_witness :
    2 ≤ ((([exAmb1, exAmb2].filter
      (fun o => o.ticker == some "T")).map (fun o => o.isin)).dedup).length ∧
    getTickerIsin [exAmb1, exAmb2] "T" = .error () ∧
    holdingsForTicker [exAmb1, exAmb2]
      [("I1", { quantity := 1, cost := 10 })] "T" = [] := by
  refine ⟨by rfl, ?_, ?_⟩
  · exact (c10_ambiguous_ticker [exAmb1, exAmb2] "T"
      [("I1", { quantity := 1, cost := 10 })] (by rfl)).1
  · exact (c10_ambiguous_ticker [exAmb1, exAmb2] "T"
      [("I1", { quantity := 1, cost := 10 })] (by rfl)).2

/-- C9 amended. Once a computation has produced at least one capital gain
or left at least one holding, the memoization guard makes every further
invocation a no-op read: recomputation returns the cached state
unchanged.  (Without that proviso the claim fails, see the
counterexample: a first run that records no gain and no holding does not
arm the guard and the body reruns.) -/
theorem c9_memoized (c c2 : TaxCalc) (hfirst : c.calculate = .ok c2)
    (hne : ¬(c2.capitalGains = []) ∨ ¬(c2.holdings = [])) :
    c2.calculate = .ok c2 := by
  unfold TaxCalc.calculate
  rw [if_pos hne]

/-- Acquisition of the C9 counterexample: 3 units for 30 on day 0. -/
def exA : Order := mkOrder Side.acquisition 0 "X" 3 30

/-- Disposal of the C9 counterexample: 4 units for 40 on day 1. -/
def exD : Order := mkOrder Side.disposal 1 "X" 4 40

/-- Fresh lenient-mode calculator over an over-disposed security. -/
def exC9 : TaxCalc :=
  { orders := [exA, exD], securities := ["X"], splitsData := [],
    strict := false, includeFxFees := true, acquisitions := [],
    disposals := [], holdings := [], capitalGains := [] }

/-- State after the first query: the over-disposal was dropped in lenient
mode, so no gain and no holding was recorded, but the per-security order
lists filled by `_merge_same_day` persist. -/
def exC9b : TaxCalc := { exC9 with
  acquisitions := [("X", [exA])]
  disposals := [("X", [exD])] }

/-- State after the second query: the guard saw no gains and no holdings,
so the body ran again, appended the orders to the per-security lists a
second time, and this time the doubled pool covers the disposal and
records a gain. -/
def exC9c : TaxCalc := { exC9 with
  acquisitions := [("X", [exA, exA])]
  disposals := [("X", [exD, exD])]
  capitalGains := [{ disposal := exD, cost := 40, acquisitionDate := none }] }

/-- Projection fact: the counterexample acquisition is an acquisition. -/
lemma exA_side : exA.side = Side.acquisition := rfl

/-- Projection fact: the counterexample disposal is a disposal. -/
lemma exD_side : exD.side = Side.disposal := rfl

/-- Grouping of the two counterexample orders. -/
lemma exC9_groups : groupSameDay [exA, exD] =
    [({ isin := "X", date := 0, side := Side.acquisition }, [exA]),
     ({ isin := "X", date := 1, side := Side.disposal }, [exD])] := by rfl

/-- The two counterexample orders are already date sorted. -/
lemma exC9_sort1 : sortByDate [exA, exD] = [exA, exD] := by rfl

/-- The doubled counterexample orders are already date sorted. -/
lemma exC9_sort2 : sortByDate [exA, exA, exD, exD] =
    [exA, exA, exD, exD] := by rfl

/-- Neither matching rule pairs the counterexample orders (different
dates, and the acquisition precedes the disposal). -/
lemma exC9_match1 : matchShares sameDayMatch [exA] [exD] =
    ([exA], [exD], []) := by rfl

/-- The thirty-day rule does not pair the counterexample orders. -/
lemma exC9_match2 : matchShares thirtyDaysMatch [exA] [exD] =
    ([exA], [exD], []) := by rfl

/-- No same-day match among the doubled counterexample orders. -/
lemma exC9_match3 : matchShares sameDayMatch [exA, exA] [exD, exD] =
    ([exA, exA], [exD, exD], []) := by rfl

/-- No thirty-day match among the doubled counterexample orders. -/
lemma exC9_match4 : matchShares thirtyDaysMatch [exA, exA] [exD, exD] =
    ([exA, exA], [exD, exD], []) := by rfl

/-- First pool run of the counterexample: the over-disposal (4 of 3 held)
is dropped in lenient mode, leaving no holding and no gains. -/
lemma exC9_s104_run1 : s104Loop false [exA, exD] none [] =
    .ok (none, []) := by
  simp only [s104Loop, exA, exD, mkOrder, Section104.increase,
    Section104.decrease]
  norm_num

/-- Second pool run of the counterexample: the doubled acquisitions pool
6 units at cost 60, the first disposal of 4 extracts allowable cost 40
and records a gain, and the second disposal over-disposes and is dropped
in lenient mode. -/
lemma exC9_s104_run2 : s104Loop false [exA, exA, exD, exD] none [] =
    .ok (none, [{ disposal := exD, cost := 40,
                  acquisitionDate := none }]) := by
  simp only [s104Loop, exA, exD, mkOrder, Section104.increase,
    Section104.decrease]
  norm_num [Fees.total, feeTruthy, exD, mkOrder]

/-- First query on the counterexample calculator fills the per-security
lists but records no gain and no holding. -/
lemma exC9_first_run : TaxCalc.calculate exC9 = .ok exC9b := by
  simp [TaxCalc.calculate, TaxCalc.calcBody, TaxCalc.normalise,
    Order.adjustQuantity, TaxCalc.runSecurities, TaxCalc.perSecurity,
    TaxCalc.mergeSameDay, TaxCalc.matchStage, processSection104,
    alGet, alGetD, alSet, alDel, exC9_groups, exC9_match1, exC9_match2,
    exC9_sort1, exC9_s104_run1, exC9, exC9b, Order.groupKey, exA_side,
    exD_side]

/-- Second query on the counterexample calculator reruns the body on the
mutated lists and this time records a gain. -/
lemma exC9_second_run : TaxCalc.calculate exC9b = .ok exC9c := by
  simp [TaxCalc.calculate, TaxCalc.calcBody, TaxCalc.normalise,
    Order.adjustQuantity, TaxCalc.runSecurities, TaxCalc.perSecurity,
    TaxCalc.mergeSameDay, TaxCalc.matchStage, processSection104,
    alGet, alGetD, alSet, alDel, exC9_groups, exC9_match3, exC9_match4,
    exC9_sort2, exC9_s104_run2, exC9, exC9b, exC9c, Order.groupKey,
    exA_side, exD_side]

/-- Counterexample for C9: the computation is not run at most once — the
first query of this lenient-mode calculator caches nothing, the second
query reruns the computation on the mutated internal lists, and the two
queries return different capital-gains results. -/
theorem c9_counterexample :
    TaxCalc.calculate exC9 = .ok exC9b ∧
    TaxCalc.calculate exC9b = .ok exC9c ∧
    exC9b.capitalGains = [] ∧
    exC9c.capitalGains = [{ disposal := exD, cost := 40,
                            acquisitionDate := none }] ∧
    ¬(exC9b.capitalGains = exC9c.capitalGains) := by
  refine ⟨exC9_first_run, exC9_second_run, rfl, rfl, ?_⟩
  simp [exC9b, exC9c, exC9]

/-- Witness for the amended C9: the second-run state has a recorded gain,
so the guard makes a third query a no-op read of that state. -/
theorem c9_witness :
    TaxCalc.calculate exC9b = .ok exC9c ∧
    (¬(exC9c.capitalGains = []) ∨ ¬(exC9c.holdings = [])) ∧
    TaxCalc.calculate exC9c = .ok exC9c := by
  refine ⟨exC9_second_run, Or.inl (by simp [exC9c, exC9]), ?_⟩
  exact c9_memoized exC9b exC9c exC9_second_run
    (Or.inl (by simp [exC9c, exC9]))

/-- Python set membership over an empty matched set. -/
lemma memP_nil (o : Order) : memP o [] = false := rfl

/-- Python set membership as an existential over keys. -/
lemma memP_eq_true_iff (o : Order) (l : List Order) :
    memP o l = true ↔ ∃ x ∈ l, o.key = x.key := by
  simp [memP]

/-- Membership is invariant under key equality. -/
lemma memP_congr (o x : Order) (l : List Order) (h : o.key = x.key) :
    memP o l = memP x l := by
  simp [memP, h]

/-- A list member is a member of the Python set view. -/
lemma memP_of_mem (x : Order) (l : List Order) (h : x ∈ l) :
    memP x l = true := by
  rw [memP_eq_true_iff]
  exact ⟨x, h, rfl⟩

/-- Consing only grows the set view. -/
lemma memP_cons_of (o x : Order) (l : List Order)
    (h : memP o l = true) : memP o (x :: l) = true := by
  rw [memP_eq_true_iff] at h ⊢
  obtain ⟨y, hy, hk⟩ := h
  exact ⟨y, List.mem_cons_of_mem _ hy, hk⟩

/-- The head is in the set view of a cons, up to key equality. -/
lemma memP_cons_self (o x : Order) (l : List Order)
    (h : o.key = x.key) : memP o (x :: l) = true := by
  rw [memP_eq_true_iff]
  exact ⟨x, List.mem_cons_self x l, h⟩

/-- Case split over membership in a cons. -/
lemma memP_cons_elim (o x : Order) (l : List Order)
    (h : memP o (x :: l) = true) :
    o.key = x.key ∨ memP o l = true := by
  rw [memP_eq_true_iff] at h
  obtain ⟨y, hy, hk⟩ := h
  rcases List.mem_cons.mp hy with hy | hy
  · exact Or.inl (hy ▸ hk)
  · exact Or.inr ((memP_eq_true_iff o l).mpr ⟨y, hy, hk⟩)

/-- Membership in a list with one element replaced comes from the old
list or from the replacement. -/
lemma memP_set_elim (o a : Order) (l : List Order) (i : ℕ)
    (h : memP o (l.set i a) = true) :
    memP o l = true ∨ o.key = a.key := by
  rw [memP_eq_true_iff] at h
  obtain ⟨y, hy, hk⟩ := h
  rcases List.mem_or_eq_of_mem_set hy with hy | hy
  · exact Or.inl ((memP_eq_true_iff o l).mpr ⟨y, hy, hk⟩)
  · exact Or.inr (hy ▸ hk)

/-- The replacement itself is a member after the replacement. -/
lemma memP_set_self (a : Order) (l : List Order) (i : ℕ)
    (hi : i < l.length) : memP a (l.set i a) = true :=
  memP_of_mem _ _ (List.mem_set l i hi a)

/-- A member whose key differs from the replaced element stays a member
after the replacement. -/
lemma memP_set_intro (o a : Order) (l : List Order) (i : ℕ)
    (hi : i < l.length) (h : memP o l = true)
    (hne : ¬(o.key = (l.get ⟨i, hi⟩).key)) :
    memP o (l.set i a) = true := by
  rw [memP_eq_true_iff] at h
  obtain ⟨y, hy, hk⟩ := h
  rw [List.mem_iff_getElem] at hy
  obtain ⟨j, hj, hjy⟩ := hy
  by_cases hij : i = j
  · exfalso
    apply hne
    subst hij
    rw [hk, ← hjy]
    simp [List.get_eq_getElem]
  · rw [memP_eq_true_iff]
    refine ⟨y, ?_, hk⟩
    rw [List.mem_iff_getElem]
    refine ⟨j, by simpa using hj, ?_⟩
    rw [List.getElem_set_ne hij]
    exact hjy

/-- Survivor filtering: an order is in
`[o for o in l if o not in matched]` exactly when it is in the list and
not in the matched set, both read with Python set semantics. -/
lemma memP_filter_not (o : Order) (l m : List Order) :
    memP o (l.filter (fun x => !memP x m)) = true ↔
      (memP o l = true ∧ memP o m = false) := by
  rw [memP_eq_true_iff]
  constructor
  · rintro ⟨x, hx, hk⟩
    rw [List.mem_filter] at hx
    obtain ⟨hxl, hxb⟩ := hx
    refine ⟨(memP_eq_true_iff o l).mpr ⟨x, hxl, hk⟩, ?_⟩
    rw [memP_congr o x m hk]
    simpa using hxb
  · rintro ⟨hl, hm⟩
    rw [memP_eq_true_iff] at hl
    obtain ⟨x, hx, hk⟩ := hl
    refine ⟨x, ?_, hk⟩
    rw [List.mem_filter]
    refine ⟨hx, ?_⟩
    have hxm : memP x m = memP o m := (memP_congr o x m hk).symm
    simp [hxm, hm]

/-- Bookkeeping invariant of one `_match_shares` loop run, relating the
state at entry to the final state `r`: the matched set and the remainder
accumulators grow monotonically, every final list entry descends from a
current entry or a produced remainder, every current entry ends up in the
final list or in the matched set, and every produced remainder ends up in
its final list or in the matched set. -/
def MStat (acqs disps mtc remsA remsD : List Order) (r : MatchResult) :
    Prop :=
  (∀ o, memP o mtc = true → memP o r.matched = true) ∧
  (∀ o, memP o remsA = true → memP o r.remsA = true) ∧
  (∀ o, memP o remsD = true → memP o r.remsD = true) ∧
  (∀ o, memP o r.acqs = true → memP o acqs = true ∨ memP o r.remsA = true) ∧
  (∀ o, memP o r.disps = true →
    memP o disps = true ∨ memP o r.remsD = true) ∧
  (∀ o, memP o acqs = true →
    memP o r.acqs = true ∨ memP o r.matched = true) ∧
  (∀ o, memP o disps = true →
    memP o r.disps = true ∨ memP o r.matched = true) ∧
  (∀ o, memP o r.remsA = true →
    memP o r.acqs = true ∨ memP o r.matched = true) ∧
  (∀ o, memP o r.remsD = true →
    memP o r.disps = true ∨ memP o r.matched = true)

/-- The matcher loop satisfies the bookkeeping invariant whenever the
remainder accumulators at entry are accounted for by the current lists
and matched set. -/
lemma matchLoopF_char (f : Order → Order → Bool) (fuel : ℕ) :
    ∀ (acqs disps mtc remsA remsD : List Order)
      (gains : List CapitalGain) (ai di : ℕ),
      (∀ x, memP x remsA = true →
        memP x acqs = true ∨ memP x mtc = true) →
      (∀ x, memP x remsD = true →
        memP x disps = true ∨ memP x mtc = true) →
      MStat acqs disps mtc remsA remsD
        (matchLoopF f fuel acqs disps mtc remsA remsD gains ai di) := by
  induction fuel with
  | zero =>
      intro acqs disps mtc remsA remsD gains ai di hA hD
      simp only [matchLoopF]
      exact ⟨fun o h => h, fun o h => h, fun o h => h,
        fun o h => Or.inl h, fun o h => Or.inl h,
        fun o h => Or.inl h, fun o h => Or.inl h, hA, hD⟩
  | succ fuel ih =>
      intro acqs disps mtc remsA remsD gains ai di hA hD
      by_cases hdi : di < disps.length
      · by_cases hai : ai < acqs.length
        · simp only [matchLoopF, dif_pos hdi, dif_pos hai]
          by_cases hc : (f (acqs.get ⟨ai, hai⟩) (disps.get ⟨di, hdi⟩) &&
              !memP (acqs.get ⟨ai, hai⟩) mtc) = true
          · rw [if_pos hc]
            by_cases hq1 : (acqs.get ⟨ai, hai⟩).quantity >
                (disps.get ⟨di, hdi⟩).quantity
            · rw [if_pos hq1]
              obtain ⟨i1, i2, i3, i4, i5, i6, i7, i8, i9⟩ :=
                ih (acqs.set ai
                    ((acqs.get ⟨ai, hai⟩).split
                      (disps.get ⟨di, hdi⟩).quantity).2)
                  disps
                  (disps.get ⟨di, hdi⟩ :: acqs.get ⟨ai, hai⟩ :: mtc)
                  (((acqs.get ⟨ai, hai⟩).split
                      (disps.get ⟨di, hdi⟩).quantity).2 :: remsA)
                  remsD
                  (gains ++ [mkGain (disps.get ⟨di, hdi⟩)
                    ((acqs.get ⟨ai, hai⟩).split
                      (disps.get ⟨di, hdi⟩).quantity).1])
                  0 (di + 1)
                  (by
                    intro x hx
                    rcases memP_cons_elim _ _ _ hx with hk | hx2
                    · left
                      rw [memP_congr x _ _ hk]
                      exact memP_set_self _ acqs ai hai
                    · rcases hA x hx2 with h | h
                      · by_cases hkA : x.key = (acqs.get ⟨ai, hai⟩).key
                        · right
                          exact memP_cons_of _ _ _
                            (memP_cons_self x _ mtc hkA)
                        · left
                          exact memP_set_intro x _ acqs ai hai h hkA
                      · right
                        exact memP_cons_of _ _ _ (memP_cons_of _ _ _ h))
                  (by
                    intro x hx
                    rcases hD x hx with h | h
                    · exact Or.inl h
                    · exact Or.inr
                        (memP_cons_of _ _ _ (memP_cons_of _ _ _ h)))
              refine ⟨?_, ?_, i3, ?_, i5, ?_, i7, i8, i9⟩
              · intro o h
                exact i1 o (memP_cons_of _ _ _ (memP_cons_of _ _ _ h))
              · intro o h
                exact i2 o (memP_cons_of _ _ _ h)
              · intro o h
                rcases i4 o h with h2 | h2
                · rcases memP_set_elim o _ acqs ai h2 with h3 | h3
                  · exact Or.inl h3
                  · exact Or.inr (i2 o (memP_cons_self o _ remsA h3))
                · exact Or.inr h2
              · intro o h
                by_cases hkA : o.key = (acqs.get ⟨ai, hai⟩).key
                · exact Or.inr (i1 o (memP_cons_of _ _ _
                    (memP_cons_self o _ mtc hkA)))
                · exact i6 o (memP_set_intro o _ acqs ai hai h hkA)
            · rw [if_neg hq1]
              by_cases hq2 : (disps.get ⟨di, hdi⟩).quantity >
                  (acqs.get ⟨ai, hai⟩).quantity
              · rw [if_pos hq2]
                obtain ⟨i1, i2, i3, i4, i5, i6, i7, i8, i9⟩ :=
                  ih acqs
                    (disps.set di
                      (((disps.get ⟨di, hdi⟩).split
                        (acqs.get ⟨ai, hai⟩).quantity).2))
                    (disps.get ⟨di, hdi⟩ :: acqs.get ⟨ai, hai⟩ :: mtc)
                    remsA
                    ((((disps.get ⟨di, hdi⟩).split
                        (acqs.get ⟨ai, hai⟩).quantity).2) :: remsD)
                    (gains ++ [mkGain
                      (((disps.get ⟨di, hdi⟩).split
                        (acqs.get ⟨ai, hai⟩).quantity).1)
                      (acqs.get ⟨ai, hai⟩)])
                    (ai + 1) di
                    (by
                      intro x hx
                      rcases hA x hx with h | h
                      · exact Or.inl h
                      · exact Or.inr
                          (memP_cons_of _ _ _ (memP_cons_of _ _ _ h)))
                    (by
                      intro x hx
                      rcases memP_cons_elim _ _ _ hx with hk | hx2
                      · left
                        rw [memP_congr x _ _ hk]
                        exact memP_set_self _ disps di hdi
                      · rcases hD x hx2 with h | h
                        · by_cases hkD :
                              x.key = (disps.get ⟨di, hdi⟩).key
                          · right
                            exact memP_cons_self x _ _ hkD
                          · left
                            exact memP_set_intro x _ disps di hdi h hkD
                        · right
                          exact memP_cons_of _ _ _
                            (memP_cons_of _ _ _ h))
                refine ⟨?_, i2, ?_, i4, ?_, i6, ?_, i8, i9⟩
                · intro o h
                  exact i1 o (memP_cons_of _ _ _ (memP_cons_of _ _ _ h))
                · intro o h
                  exact i3 o (memP_cons_of _ _ _ h)
                · intro o h
                  rcases i5 o h with h2 | h2
                  · rcases memP_set_elim o _ disps di h2 with h3 | h3
                    · exact Or.inl h3
                    · exact Or.inr (i3 o (memP_cons_self o _ remsD h3))
                  · exact Or.inr h2
                · intro o h
                  by_cases hkD : o.key = (disps.get ⟨di, hdi⟩).key
                  · exact Or.inr (i1 o (memP_cons_self o _ _ hkD))
                  · exact i7 o (memP_set_intro o _ disps di hdi h hkD)
              · rw [if_neg hq2]
                obtain ⟨i1, i2, i3, i4, i5, i6, i7, i8, i9⟩ :=
                  ih acqs disps
                    (disps.get ⟨di, hdi⟩ :: acqs.get ⟨ai, hai⟩ :: mtc)
                    remsA remsD
                    (gains ++ [mkGain (disps.get ⟨di, hdi⟩)
                      (acqs.get ⟨ai, hai⟩)])
                    0 (di + 1)
                    (by
                      intro x hx
                      rcases hA x hx with h | h
                      · exact Or.inl h
                      · exact Or.inr
                          (memP_cons_of _ _ _ (memP_cons_of _ _ _ h)))
                    (by
                      intro x hx
                      rcases hD x hx with h | h
                      · exact Or.inl h
                      · exact Or.inr
                          (memP_cons_of _ _ _ (memP_cons_of _ _ _ h)))
                refine ⟨?_, i2, i3, i4, i5, i6, i7, i8, i9⟩
                intro o h
                exact i1 o (memP_cons_of _ _ _ (memP_cons_of _ _ _ h))
          · rw [if_neg hc]
            exact ih acqs disps mtc remsA remsD gains (ai + 1) di hA hD
        · simp only [matchLoopF, dif_pos hdi, dif_neg hai]
          exact ih acqs disps mtc remsA remsD gains 0 (di + 1) hA hD
      · simp only [matchLoopF, dif_neg hdi]
        exact ⟨fun o h => h, fun o h => h, fun o h => h,
          fun o h => Or.inl h, fun o h => Or.inl h,
          fun o h => Or.inl h, fun o h => Or.inl h, hA, hD⟩

/-- C1. After a `_match_shares` rule pass, the surviving acquisition and
disposal lists contain exactly the orders that were not fully consumed:
an order survives in a list if and only if it descends from the incoming
list or is a remainder produced by a partial split during the pass, and
it was not put into the matched set; in particular every fully consumed
order is removed, and every remainder not itself consumed later in the
pass persists for the next rule or for Section 104 pooling. -/
theorem c1_match_shares_survivors (f : Order → Order → Bool)
    (acqs disps : List Order) (o : Order) :
    (memP o (matchShares f acqs disps).1 = true ↔
      ((memP o acqs = true ∨
        memP o (matchRun f acqs disps).remsA = true) ∧
        memP o (matchRun f acqs disps).matched = false)) ∧
    (memP o (matchShares f acqs disps).2.1 = true ↔
      ((memP o disps = true ∨
        memP o (matchRun f acqs disps).remsD = true) ∧
        memP o (matchRun f acqs disps).matched = false)) := by
  obtain ⟨i1, i2, i3, i4, i5, i6, i7, i8, i9⟩ :=
    matchLoopF_char f ((disps.length + 1) * (acqs.length + 2)) acqs disps
      [] [] [] [] 0 0 (by intro x hx; simp [memP] at hx)
      (by intro x hx; simp [memP] at hx)
  simp only [matchShares, matchRun]
  rw [memP_filter_not, memP_filter_not]
  constructor
  · constructor
    · rintro ⟨h1, h2⟩
      exact ⟨i4 o h1, h2⟩
    · rintro ⟨h1, h2⟩
      rcases h1 with h1 | h1
      · rcases i6 o h1 with h3 | h3
        · exact ⟨h3, h2⟩
        · rw [h3] at h2
          exact Bool.noConfusion h2
      · rcases i8 o h1 with h3 | h3
        · exact ⟨h3, h2⟩
        · rw [h3] at h2
          exact Bool.noConfusion h2
  · constructor
    · rintro ⟨h1, h2⟩
      exact ⟨i5 o h1, h2⟩
    · rintro ⟨h1, h2⟩
      rcases h1 with h1 | h1
      · rcases i7 o h1 with h3 | h3
        · exact ⟨h3, h2⟩
        · rw [h3] at h2
          exact Bool.noConfusion h2
      · rcases i9 o h1 with h3 | h3
        · exact ⟨h3, h2⟩
        · rw [h3] at h2
          exact Bool.noConfusion h2
